import Mathlib

/-!
Shallow embedding of the file-discovery and tabular-aggregation pipeline of
`src/main.py` (a Streamlit dashboard for plant-growth data).

Modelling conventions:
  * A directory is the list of its entries' names (`List String`), in
    iteration order.
  * The Unicode normalizations NFC/NFD (`unicodedata.normalize`, library
    code outside the repository) are parameters `nfc nfd : String → String`.
  * Reading a CSV file (`pd.read_csv`) is a parameter
    `read_csv : String → List EnvRow`; reading the sheets of a workbook
    (`pd.ExcelFile` / `xls.parse`) is a parameter
    `workbook_of : String → List (String × List GrowthRow)` mapping the
    found path to its list of (sheet name, rows).
  * Numeric cells are rationals (`Rat`); the pandas mean of a column is the
    exact rational mean, so "within floating-point tolerance" statements
    become exact identities.
  * `None` returns of the Python loaders become `Option.none`; the absent
    (`NaN`) concentration tag `SCHOOL_EC.get(sheet)` becomes `Option Rat`.
-/

/-- The fixed Group → target-concentration configuration (`SCHOOL_EC`,
src/main.py lines 36-41), kept in its insertion order, which is the
iteration order of a Python dict. -/
def SCHOOL_EC : List (String × Rat) :=
  [("송도고", 1), ("하늘고", 2), ("아라고", 4), ("동산고", 8)]

/-- `dict.get` / `dict[k]` on an association list: the value at the first
occurrence of key `k`, if any. -/
def lookupKey {β : Type} (k : String) : List (String × β) → Option β
  | [] => none
  | kv :: rest => if k = kv.1 then some kv.2 else lookupKey k rest

/-- `find_file_by_name` (src/main.py lines 53-62): scan the directory and
return the first entry whose NFC form matches the target's NFC form or whose
NFD form matches the target's NFD form; `none` when no entry matches. -/
def find_file_by_name (nfc nfd : String → String)
    (directory : List String) (target_name : String) : Option String :=
  match directory with
  | [] => none
  | file :: rest =>
    if nfc file = nfc target_name ∨ nfd file = nfd target_name then some file
    else find_file_by_name nfc nfd rest target_name

/-- One row of a Group's environment CSV (columns `time, temperature,
humidity, ph, ec`). -/
structure EnvRow where
  time : Rat
  temperature : Rat
  humidity : Rat
  ph : Rat
  ec : Rat
deriving DecidableEq

/-- An environment row after `load_env_data` stamps it with its Group
(`df["학교"] = school`). -/
structure EnvRecord where
  row : EnvRow
  school : String
deriving DecidableEq

/-- One row of a growth-result sheet (columns `잎 수(장)`, `지상부 길이(mm)`,
`생중량(g)`). -/
structure GrowthRow where
  leaf_count : Rat
  shoot_length : Rat
  fresh_weight : Rat
deriving DecidableEq

/-- A growth row after `load_growth_data` stamps it with its sheet's Group
(`df["학교"] = sheet`) and the configured concentration
(`df["EC"] = SCHOOL_EC.get(sheet)`, `none` when the sheet is unmapped). -/
structure GrowthRecord where
  row : GrowthRow
  school : String
  ec : Option Rat
deriving DecidableEq

/-- The loop body of `load_env_data` over the remaining configured Groups:
resolve `f"{school}_환경데이터.csv"`, abort with `none` on the first missing
file, otherwise read and tag the rows and continue. -/
def load_env_go (nfc nfd : String → String) (directory : List String)
    (read_csv : String → List EnvRow) :
    List (String × Rat) → Option (List (String × List EnvRecord))
  | [] => some []
  | sc :: rest =>
    match find_file_by_name nfc nfd directory (sc.1 ++ "_환경데이터.csv") with
    | none => none
    | some file_path =>
      match load_env_go nfc nfd directory read_csv rest with
      | none => none
      | some tail =>
        some ((sc.1, (read_csv file_path).map fun r => ⟨r, sc.1⟩) :: tail)

/-- `load_env_data` (src/main.py lines 67-79): for every configured Group,
locate its environment CSV via `find_file_by_name`; return `none` as soon as
any single file is missing, otherwise the per-Group tagged tables. -/
def load_env_data (nfc nfd : String → String) (directory : List String)
    (read_csv : String → List EnvRow) :
    Option (List (String × List EnvRecord)) :=
  load_env_go nfc nfd directory read_csv SCHOOL_EC

/-- `load_growth_data` (src/main.py lines 81-96): locate the single workbook
`4개교_생육결과데이터.xlsx`; `none` when absent; otherwise parse every sheet,
stamping each row with the sheet name and the looked-up configured
concentration (`SCHOOL_EC.get(sheet)`). -/
def load_growth_data (nfc nfd : String → String) (directory : List String)
    (workbook_of : String → List (String × List GrowthRow)) :
    Option (List (String × List GrowthRecord)) :=
  match find_file_by_name nfc nfd directory "4개교_생육결과데이터.xlsx" with
  | none => none
  | some file_path =>
    some ((workbook_of file_path).map fun sheet =>
      (sheet.1, sheet.2.map fun r => ⟨r, sheet.1, lookupKey sheet.1 SCHOOL_EC⟩))

/-- `growth_all = pd.concat(growth_data.values())` (src/main.py line 231). -/
def flattenGrowth (d : List (String × List GrowthRecord)) : List GrowthRecord :=
  (d.map Prod.snd).flatten

/-- The pandas mean of a numeric column, as an exact rational. -/
def meanR (l : List Rat) : Rat := l.sum / (l.length : Rat)

/-- `avg_rows` / `avg_df` (src/main.py lines 165-175): one row per Group with
the mean of each numeric environment column and the configured target. -/
structure EnvAvgRow where
  school : String
  temperature : Rat
  humidity : Rat
  ph : Rat
  ec : Rat
  target_ec : Option Rat
deriving DecidableEq

/-- The per-Group environment means (src/main.py lines 165-175). -/
def avg_rows (env_data : List (String × List EnvRecord)) : List EnvAvgRow :=
  env_data.map fun sd =>
    { school := sd.1
      temperature := meanR (sd.2.map fun r => r.row.temperature)
      humidity := meanR (sd.2.map fun r => r.row.humidity)
      ph := meanR (sd.2.map fun r => r.row.ph)
      ec := meanR (sd.2.map fun r => r.row.ec)
      target_ec := lookupKey sd.1 SCHOOL_EC }

/-- Insert into an ascending list, keeping it ascending. -/
def insertAsc (x : Rat) : List Rat → List Rat
  | [] => [x]
  | y :: ys => if x ≤ y then x :: y :: ys else y :: insertAsc x ys

/-- Sort ascending (pandas `groupby` sorts its keys ascending). -/
def sortAsc : List Rat → List Rat
  | [] => []
  | x :: xs => insertAsc x (sortAsc xs)

/-- The distinct concentration keys of `growth_all.groupby("EC")`, ascending;
rows whose `EC` is absent (`NaN`) carry no key, as in pandas. -/
def ecKeys (records : List GrowthRecord) : List Rat :=
  sortAsc (records.filterMap GrowthRecord.ec).dedup

/-- The `생중량(g)` column of the group of rows at concentration `e`. -/
def weightsAt (records : List GrowthRecord) (e : Rat) : List Rat :=
  (records.filter fun r => decide (r.ec = some e)).map fun r => r.row.fresh_weight

/-- `ec_weight = growth_all.groupby("EC")["생중량(g)"].mean()`
(src/main.py line 233): the (concentration, mean fresh weight) pairs in
ascending concentration order. -/
def ec_weight (records : List GrowthRecord) : List (Rat × Rat) :=
  (ecKeys records).map fun e => (e, meanR (weightsAt records e))

/-- The scan behind `idxmax`: best-so-far fold in which only a strictly
greater value replaces the current best, so the first maximum wins. -/
def idxmaxGo (p : Rat × Rat) : List (Rat × Rat) → Rat × Rat
  | [] => p
  | q :: rest => if p.2 < q.2 then idxmaxGo q rest else idxmaxGo p rest

/-- `best_ec = ec_weight.loc[ec_weight["생중량(g)"].idxmax(), "EC"]`
(src/main.py line 234): the concentration of the first row attaining the
maximal mean fresh weight (`none` on an empty table, where pandas raises). -/
def best_ec (records : List GrowthRecord) : Option Rat :=
  match ec_weight records with
  | [] => none
  | p :: rest => some (idxmaxGo p rest).1

/-- Count of growth rows at concentration `e` (the group's size). -/
def ecCount (records : List GrowthRecord) (e : Rat) : Nat :=
  (weightsAt records e).length

/-- Sum over the condition-means table of (group size × group mean). -/
def condTotal (records : List GrowthRecord) : Rat :=
  ((ec_weight records).map fun p => (ecCount records p.1 : Rat) * p.2).sum

/-- Sum of every individual fresh-weight value. -/
def totalWeight (records : List GrowthRecord) : Rat :=
  (records.map fun r => r.row.fresh_weight).sum

/-- Modelled from the spec: the cross-table merge of the Aggregator ("join
per-group environment means with per-group growth means on Group identity
...; Groups present in only one side are dropped (inner join semantics)").
The merge belongs to the second dashboard variant of this repository, which
is not among the staged source files; it is an inner join on the Group
column of two keyed tables. -/
def cross_merge {α β : Type} (env : List (String × α))
    (growth : List (String × β)) : List (String × α × β) :=
  env.filterMap fun sa => (lookupKey sa.1 growth).map fun b => (sa.1, sa.2, b)

/-- How many rows of a merged table carry Group key `s`. -/
def keyCount {α β : Type} (s : String) : List (String × α × β) → Nat
  | [] => 0
  | p :: rest => (if p.1 = s then 1 else 0) + keyCount s rest

/-! ## Properties of the name normalizer -/

/-- A scan step: the result of `find_file_by_name` is `some` exactly when some
directory entry matches the target in NFC or in NFD form. -/
theorem find_file_isSome_iff (nfc nfd : String → String)
    (directory : List String) (t : String) :
    (find_file_by_name nfc nfd directory t).isSome = true ↔
      ∃ f ∈ directory, nfc f = nfc t ∨ nfd f = nfd t := by
  induction directory with
  | nil => simp [find_file_by_name]
  | cons f rest ih =>
    by_cases h : nfc f = nfc t ∨ nfd f = nfd t
    · simp [find_file_by_name, h]
    · simp only [find_file_by_name, if_neg h, ih, List.mem_cons]
      constructor
      · rintro ⟨g, hg, hm⟩; exact ⟨g, Or.inr hg, hm⟩
      · rintro ⟨g, hg | hg, hm⟩
        · exact absurd (hg ▸ hm) h
        · exact ⟨g, hg, hm⟩

/-- C1: `find_file_by_name` returns a file entry whenever the directory
contains a file canonically equivalent to the target (equal NFC forms or
equal NFD forms), returns `none` only when no entry matches in either form,
and in particular — given the Unicode facts that NFC and NFD are idempotent
and absorb each other — an NFC-form target locates an NFD-form file on disk
and vice versa. -/
theorem find_file_by_name_correct (nfc nfd : String → String)
    (hcc : ∀ s, nfc (nfc s) = nfc s) (hcd : ∀ s, nfc (nfd s) = nfc s)
    (hdd : ∀ s, nfd (nfd s) = nfd s) (hdc : ∀ s, nfd (nfc s) = nfd s)
    (directory : List String) (t : String) :
    ((∃ f ∈ directory, nfc f = nfc t ∨ nfd f = nfd t) →
      (find_file_by_name nfc nfd directory t).isSome = true) ∧
    (find_file_by_name nfc nfd directory t = none →
      ∀ f ∈ directory, ¬(nfc f = nfc t ∨ nfd f = nfd t)) ∧
    (nfd t ∈ directory →
      (find_file_by_name nfc nfd directory (nfc t)).isSome = true) ∧
    (nfc t ∈ directory →
      (find_file_by_name nfc nfd directory (nfd t)).isSome = true) := by
  refine ⟨fun h => (find_file_isSome_iff nfc nfd directory t).mpr h, ?_, ?_, ?_⟩
  · intro hn f hf hm
    have := (find_file_isSome_iff nfc nfd directory t).mpr ⟨f, hf, hm⟩
    rw [hn] at this
    simp at this
  · intro hmem
    exact (find_file_isSome_iff nfc nfd directory (nfc t)).mpr
      ⟨nfd t, hmem, Or.inl (by rw [hcd, hcc])⟩
  · intro hmem
    exact (find_file_isSome_iff nfc nfd directory (nfd t)).mpr
      ⟨nfc t, hmem, Or.inr (by rw [hdc, hdd])⟩

/-- C1 witness: the normalizer with identity normalizations on the singleton
directory `["a.csv"]` locates `"a.csv"`. -/
theorem find_file_by_name_correct_witness :
    (find_file_by_name id id ["a.csv"] "a.csv").isSome = true :=
  (find_file_by_name_correct id id (fun _ => rfl) (fun _ => rfl) (fun _ => rfl)
    (fun _ => rfl) ["a.csv"] "a.csv").1 ⟨"a.csv", by simp, Or.inl rfl⟩

/-! ## Properties of the dataset loader -/

/-- If any configured Group's file is missing, the environment-loading loop
aborts with `none`. -/
theorem load_env_go_eq_none (nfc nfd : String → String) (directory : List String)
    (read_csv : String → List EnvRow) :
    ∀ schools : List (String × Rat),
      (∃ sc ∈ schools,
        find_file_by_name nfc nfd directory (sc.1 ++ "_환경데이터.csv") = none) →
      load_env_go nfc nfd directory read_csv schools = none
  | [], h => by simp at h
  | sc :: rest, h => by
    rcases h with ⟨sc0, hmem, hfind⟩
    rcases List.mem_cons.mp hmem with rfl | hmem0
    · simp [load_env_go, hfind]
    · unfold load_env_go
      cases hf : find_file_by_name nfc nfd directory (sc.1 ++ "_환경데이터.csv") with
      | none => rfl
      | some fp =>
        rw [load_env_go_eq_none nfc nfd directory read_csv rest ⟨sc0, hmem0, hfind⟩]

/-- C2: if any single configured Group's environment file is absent from the
directory, `load_env_data` returns `none` — no partial dataset for the other
Groups is ever produced, and since every successful load (an empty one
included) is a `some`, the failure signal is distinguishable from a loaded
but empty dataset. -/
theorem load_env_data_all_or_nothing (nfc nfd : String → String)
    (directory : List String) (read_csv : String → List EnvRow)
    (h : ∃ sc ∈ SCHOOL_EC,
      find_file_by_name nfc nfd directory (sc.1 ++ "_환경데이터.csv") = none) :
    load_env_data nfc nfd directory read_csv = none ∧
    ∀ d : List (String × List EnvRecord),
      load_env_data nfc nfd directory read_csv ≠ some d := by
  have h0 : load_env_data nfc nfd directory read_csv = none :=
    load_env_go_eq_none nfc nfd directory read_csv SCHOOL_EC h
  exact ⟨h0, fun d hd => by rw [h0] at hd; cases hd⟩

/-- C2 witness: a directory holding only 송도고's file makes the whole load
fail. -/
theorem load_env_data_all_or_nothing_witness :
    load_env_data id id ["송도고_환경데이터.csv"] (fun _ => []) = none ∧
    ∀ d : List (String × List EnvRecord),
      load_env_data id id ["송도고_환경데이터.csv"] (fun _ => []) ≠ some d :=
  load_env_data_all_or_nothing id id ["송도고_환경데이터.csv"] (fun _ => [])
    (by decide)

/-- `lookupKey` misses exactly the keys outside the association list. -/
theorem lookupKey_eq_none_iff {β : Type} (k : String) (l : List (String × β)) :
    lookupKey k l = none ↔ k ∉ l.map Prod.fst := by
  induction l with
  | nil => simp [lookupKey]
  | cons kv rest ih => by_cases h : k = kv.1 <;> simp [lookupKey, h, ih]

/-- A successful `lookupKey` means the key is present. -/
theorem mem_of_lookupKey_eq_some {β : Type} {k : String} {l : List (String × β)}
    {b : β} (h : lookupKey k l = some b) : k ∈ l.map Prod.fst := by
  by_contra hk
  rw [← lookupKey_eq_none_iff k l] at hk
  rw [hk] at h
  cases h

/-- C6: when the workbook file resolves, `load_growth_data` parses every
sheet, stamping each row with the sheet's name and the configured
concentration looked up from `SCHOOL_EC`; a sheet name outside the
configured mapping gets the absent (`none`) tag and loading still
succeeds. -/
theorem load_growth_data_tags (nfc nfd : String → String)
    (directory : List String)
    (workbook_of : String → List (String × List GrowthRow)) (file_path : String)
    (h : find_file_by_name nfc nfd directory "4개교_생육결과데이터.xlsx" =
      some file_path) :
    load_growth_data nfc nfd directory workbook_of =
      some ((workbook_of file_path).map fun sheet =>
        (sheet.1, sheet.2.map fun r =>
          ⟨r, sheet.1, lookupKey sheet.1 SCHOOL_EC⟩)) ∧
    ∀ sheet ∈ workbook_of file_path,
      (∀ kv ∈ SCHOOL_EC, sheet.1 ≠ kv.1) →
      lookupKey sheet.1 SCHOOL_EC = none := by
  constructor
  · unfold load_growth_data
    rw [h]
  · intro sheet _ hout
    exact (lookupKey_eq_none_iff sheet.1 SCHOOL_EC).mpr
      (fun hmem => by
        rcases List.mem_map.mp hmem with ⟨kv, hkv, hfst⟩
        exact hout kv hkv hfst.symm)

/-- C6 witness: a workbook with the single unmapped sheet `"X"` loads
successfully with the absent concentration tag. -/
theorem load_growth_data_tags_witness :
    load_growth_data id id ["4개교_생육결과데이터.xlsx"]
        (fun _ => [("X", [⟨0, 0, 5⟩])]) =
      some (([("X", [(⟨0, 0, 5⟩ : GrowthRow)])]).map fun sheet =>
        (sheet.1, sheet.2.map fun r =>
          ⟨r, sheet.1, lookupKey sheet.1 SCHOOL_EC⟩)) ∧
    ∀ sheet ∈ [("X", [(⟨0, 0, 5⟩ : GrowthRow)])],
      (∀ kv ∈ SCHOOL_EC, sheet.1 ≠ kv.1) →
      lookupKey sheet.1 SCHOOL_EC = none :=
  load_growth_data_tags id id ["4개교_생육결과데이터.xlsx"]
    (fun _ => [("X", [⟨0, 0, 5⟩])]) "4개교_생육결과데이터.xlsx" (by decide)

/-- C7: loading is deterministic — two invocations of `load_env_data` (and
of `load_growth_data`) on the same configuration, directory contents and
file contents produce identical in-memory datasets. -/
theorem load_data_deterministic (nfc nfd nfc2 nfd2 : String → String)
    (directory directory2 : List String)
    (read_csv read_csv2 : String → List EnvRow)
    (workbook_of workbook_of2 : String → List (String × List GrowthRow))
    (h1 : nfc = nfc2) (h2 : nfd = nfd2) (h3 : directory = directory2)
    (h4 : read_csv = read_csv2) (h5 : workbook_of = workbook_of2) :
    load_env_data nfc nfd directory read_csv =
      load_env_data nfc2 nfd2 directory2 read_csv2 ∧
    load_growth_data nfc nfd directory workbook_of =
      load_growth_data nfc2 nfd2 directory2 workbook_of2 := by
  subst h1 h2 h3 h4 h5
  exact ⟨rfl, rfl⟩

/-- C7 witness: the two loaders at one fixed concrete input agree with
themselves. -/
theorem load_data_deterministic_witness :
    load_env_data id id [] (fun _ => []) = load_env_data id id [] (fun _ => []) ∧
    load_growth_data id id [] (fun _ => []) =
      load_growth_data id id [] (fun _ => []) :=
  load_data_deterministic id id id id [] [] (fun _ => []) (fun _ => [])
    (fun _ => []) (fun _ => []) rfl rfl rfl rfl rfl

/-! ## Properties of the aggregator -/

/-- C8: a Group whose environment table holds a single record gets that
record's field values, exactly, as its per-Group means. -/
theorem avg_rows_single_record (env_data : List (String × List EnvRecord))
    (school : String) (r : EnvRecord) (h : (school, [r]) ∈ env_data) :
    ∃ row ∈ avg_rows env_data,
      row.school = school ∧ row.temperature = r.row.temperature ∧
      row.humidity = r.row.humidity ∧ row.ph = r.row.ph ∧
      row.ec = r.row.ec := by
  refine ⟨_, List.mem_map.mpr ⟨(school, [r]), h, rfl⟩, rfl, ?_, ?_, ?_, ?_⟩ <;>
    simp [meanR]

/-- C8 witness: the means over the singleton table of Group `"A"` are the
single record's fields. -/
theorem avg_rows_single_record_witness :
    ∃ row ∈ avg_rows [("A", [(⟨⟨0, 1, 2, 3, 4⟩, "A"⟩ : EnvRecord)])],
      row.school = "A" ∧
      row.temperature = (⟨⟨0, 1, 2, 3, 4⟩, "A"⟩ : EnvRecord).row.temperature ∧
      row.humidity = (⟨⟨0, 1, 2, 3, 4⟩, "A"⟩ : EnvRecord).row.humidity ∧
      row.ph = (⟨⟨0, 1, 2, 3, 4⟩, "A"⟩ : EnvRecord).row.ph ∧
      row.ec = (⟨⟨0, 1, 2, 3, 4⟩, "A"⟩ : EnvRecord).row.ec :=
  avg_rows_single_record [("A", [⟨⟨0, 1, 2, 3, 4⟩, "A"⟩])] "A"
    ⟨⟨0, 1, 2, 3, 4⟩, "A"⟩ (List.mem_singleton.mpr rfl)

/-- The spec's pooling scenario as tagged growth records: Group A (target
1.0) with fresh weights 1 and 3, Group B (target 2.0) with weight 5, Group C
(target 2.0) with weight 7. -/
def scenarioRecords : List GrowthRecord :=
  [⟨⟨0, 0, 1⟩, "A", some 1⟩, ⟨⟨0, 0, 3⟩, "A", some 1⟩,
   ⟨⟨0, 0, 5⟩, "B", some 2⟩, ⟨⟨0, 0, 7⟩, "C", some 2⟩]

/-- C3: the condition-means pool records across Groups sharing a
concentration and average fresh weight per concentration; on the scenario
{A: 1.0 with [1, 3], B: 2.0 with [5], C: 2.0 with [7]} they are
{1.0 ↦ 2.0, 2.0 ↦ 6.0} and the best concentration is 2.0. -/
theorem ec_weight_scenario :
    ec_weight scenarioRecords = [(1, 2), (2, 6)] ∧
    best_ec scenarioRecords = some 2 := by
  have hw : ec_weight scenarioRecords = [(1, 2), (2, 6)] := by
    have hk : ecKeys scenarioRecords = [1, 2] := by decide
    have h1 : weightsAt scenarioRecords 1 = [1, 3] := by decide
    have h2 : weightsAt scenarioRecords 2 = [5, 7] := by decide
    norm_num [ec_weight, hk, h1, h2, meanR]
  exact ⟨hw, by norm_num [best_ec, hw, idxmaxGo]⟩

/-- Inserting into a list permutes consing onto it. -/
theorem insertAsc_perm (x : Rat) : ∀ l : List Rat,
    List.Perm (insertAsc x l) (x :: l)
  | [] => List.Perm.refl _
  | y :: ys => by
    unfold insertAsc
    by_cases h : x ≤ y
    · rw [if_pos h]
    · rw [if_neg h]
      exact ((insertAsc_perm x ys).cons y).trans (List.Perm.swap x y ys)

/-- Sorting permutes the list. -/
theorem sortAsc_perm : ∀ l : List Rat, List.Perm (sortAsc l) l
  | [] => List.Perm.refl _
  | x :: xs => (insertAsc_perm x (sortAsc xs)).trans ((sortAsc_perm xs).cons x)

/-- Inserting into an ascending list keeps it ascending. -/
theorem insertAsc_pairwise (x : Rat) : ∀ l : List Rat,
    l.Pairwise (· ≤ ·) → (insertAsc x l).Pairwise (· ≤ ·)
  | [], _ => List.pairwise_singleton _ _
  | y :: ys, h => by
    rw [List.pairwise_cons] at h
    unfold insertAsc
    by_cases hxy : x ≤ y
    · rw [if_pos hxy]
      refine List.pairwise_cons.mpr ⟨?_, List.pairwise_cons.mpr h⟩
      intro b hb
      rcases List.mem_cons.mp hb with rfl | hb
      · exact hxy
      · exact hxy.trans (h.1 b hb)
    · rw [if_neg hxy]
      refine List.pairwise_cons.mpr ⟨?_, insertAsc_pairwise x ys h.2⟩
      intro b hb
      rcases List.mem_cons.mp ((insertAsc_perm x ys).mem_iff.mp hb) with rfl | hb
      · exact le_of_not_le hxy
      · exact h.1 b hb

/-- The sort's output is ascending. -/
theorem sortAsc_pairwise : ∀ l : List Rat, (sortAsc l).Pairwise (· ≤ ·)
  | [] => List.Pairwise.nil
  | x :: xs => insertAsc_pairwise x (sortAsc xs) (sortAsc_pairwise xs)

/-- The concentration keys are exactly the concentrations some record
carries. -/
theorem mem_ecKeys {records : List GrowthRecord} {e : Rat} :
    e ∈ ecKeys records ↔ ∃ r ∈ records, r.ec = some e := by
  unfold ecKeys
  rw [(sortAsc_perm _).mem_iff, List.mem_dedup, List.mem_filterMap]

/-- The concentration keys list no concentration twice. -/
theorem ecKeys_nodup (records : List GrowthRecord) : (ecKeys records).Nodup :=
  (sortAsc_perm _).nodup_iff.mpr (List.nodup_dedup _)

/-- The concentration keys are in ascending order. -/
theorem ecKeys_sorted (records : List GrowthRecord) :
    (ecKeys records).Pairwise (· ≤ ·) :=
  sortAsc_pairwise _

/-- The condition-means table is keyed by the concentration keys. -/
theorem ec_weight_keys (records : List GrowthRecord) :
    (ec_weight records).map Prod.fst = ecKeys records := by
  unfold ec_weight
  generalize ecKeys records = ks
  induction ks with
  | nil => rfl
  | cons e ks ih => simp only [List.map_cons]; rw [ih]

/-- The `idxmax` scan returns the seed or a list element. -/
theorem idxmaxGo_mem : ∀ (l : List (Rat × Rat)) (p : Rat × Rat),
    idxmaxGo p l = p ∨ idxmaxGo p l ∈ l
  | [], _ => Or.inl rfl
  | q :: rest, p => by
    unfold idxmaxGo
    by_cases h : p.2 < q.2
    · rw [if_pos h]
      rcases idxmaxGo_mem rest q with h1 | h1
      · exact Or.inr (by rw [h1]; exact List.mem_cons_self _ _)
      · exact Or.inr (List.mem_cons_of_mem _ h1)
    · rw [if_neg h]
      rcases idxmaxGo_mem rest p with h1 | h1
      · exact Or.inl h1
      · exact Or.inr (List.mem_cons_of_mem _ h1)

/-- On a table whose keys ascend, the `idxmax` scan returns a row whose value
is maximal and whose key is least among the rows attaining that maximum
(a strictly greater value is required to displace the current best, so the
first — lowest-keyed — maximum wins). -/
theorem idxmaxGo_spec : ∀ (l : List (Rat × Rat)) (p : Rat × Rat),
    (p :: l).Pairwise (fun a b => a.1 ≤ b.1) →
    (idxmaxGo p l = p ∨ idxmaxGo p l ∈ l) ∧
    ∀ r ∈ p :: l, r.2 ≤ (idxmaxGo p l).2 ∧
      (r.2 = (idxmaxGo p l).2 → (idxmaxGo p l).1 ≤ r.1)
  | [], p => by
    intro _
    refine ⟨Or.inl rfl, ?_⟩
    intro r hr
    rcases List.mem_cons.mp hr with rfl | hr
    · exact ⟨le_refl _, fun _ => le_refl _⟩
    · cases hr
  | s :: rest, p => by
    intro hpair
    rw [List.pairwise_cons] at hpair
    obtain ⟨hp1, hp2⟩ := hpair
    unfold idxmaxGo
    by_cases h : p.2 < s.2
    · rw [if_pos h]
      obtain ⟨hmem, hall⟩ := idxmaxGo_spec rest s hp2
      constructor
      · rcases hmem with h1 | h1
        · exact Or.inr (by rw [h1]; exact List.mem_cons_self _ _)
        · exact Or.inr (List.mem_cons_of_mem _ h1)
      · intro r hr
        rcases List.mem_cons.mp hr with rfl | hr
        · have hs2 : s.2 ≤ (idxmaxGo s rest).2 :=
            (hall s (List.mem_cons_self _ _)).1
          refine ⟨le_of_lt (lt_of_lt_of_le h hs2), ?_⟩
          intro he
          exact absurd (he ▸ lt_of_lt_of_le h hs2) (lt_irrefl _)
        · exact hall r hr
    · rw [if_neg h]
      have hsp : s.2 ≤ p.2 := le_of_not_lt h
      have hpair2 : (p :: rest).Pairwise (fun a b => a.1 ≤ b.1) :=
        List.pairwise_cons.mpr
          ⟨fun b hb => hp1 b (List.mem_cons_of_mem _ hb),
           (List.pairwise_cons.mp hp2).2⟩
      obtain ⟨hmem, hall⟩ := idxmaxGo_spec rest p hpair2
      constructor
      · rcases hmem with h1 | h1
        · exact Or.inl h1
        · exact Or.inr (List.mem_cons_of_mem _ h1)
      · intro r hr
        have hp : p.2 ≤ (idxmaxGo p rest).2 ∧
            (p.2 = (idxmaxGo p rest).2 → (idxmaxGo p rest).1 ≤ p.1) :=
          hall p (List.mem_cons_self _ _)
        rcases List.mem_cons.mp hr with rfl | hr
        · exact hp
        · rcases List.mem_cons.mp hr with rfl | hr2
          · refine ⟨hsp.trans hp.1, ?_⟩
            intro he
            have hpe : p.2 = (idxmaxGo p rest).2 :=
              le_antisymm hp.1 (he ▸ hsp)
            exact (hp.2 hpe).trans (hp1 _ (List.mem_cons_self _ _))
          · exact hall r (List.mem_cons_of_mem _ hr2)

/-- The condition-means table is pairwise ascending in its concentration
column. -/
theorem ec_weight_sorted (records : List GrowthRecord) :
    (ec_weight records).Pairwise (fun a b => a.1 ≤ b.1) := by
  unfold ec_weight
  exact List.pairwise_map.mpr (by simpa using ecKeys_sorted records)

/-- C9: best-condition selection is deterministic on ties — the returned
concentration attains the maximal mean fresh weight, and among all
concentrations attaining that maximum it is the numerically lowest, because
the grouping is sorted ascending and `idxmax` keeps the first row attaining
the maximum. -/
theorem best_ec_lowest_on_tie (records : List GrowthRecord) (b : Rat)
    (h : best_ec records = some b) :
    ∃ mb : Rat, (b, mb) ∈ ec_weight records ∧
      ∀ q ∈ ec_weight records, q.2 ≤ mb ∧ (q.2 = mb → b ≤ q.1) := by
  unfold best_ec at h
  cases hw : ec_weight records with
  | nil => rw [hw] at h; cases h
  | cons p rest =>
    rw [hw] at h
    have hb : (idxmaxGo p rest).1 = b := Option.some.inj h
    have hpair : (p :: rest).Pairwise (fun a c => a.1 ≤ c.1) := by
      have := ec_weight_sorted records
      rwa [hw] at this
    obtain ⟨hmem, hall⟩ := idxmaxGo_spec rest p hpair
    refine ⟨(idxmaxGo p rest).2, ?_, ?_⟩
    · rw [← hb]
      rcases hmem with h1 | h1
      · rw [show ((idxmaxGo p rest).1, (idxmaxGo p rest).2) = idxmaxGo p rest
          from rfl, h1]
        exact List.mem_cons_self _ _
      · rw [show ((idxmaxGo p rest).1, (idxmaxGo p rest).2) = idxmaxGo p rest
          from rfl]
        exact List.mem_cons_of_mem _ h1
    · intro q hq
      obtain ⟨hle, heq⟩ := hall q hq
      exact ⟨hle, fun he => hb ▸ heq he⟩

/-- Two Groups tied at mean fresh weight 2, at concentrations 1 and 2. -/
def tieRecords : List GrowthRecord :=
  [⟨⟨0, 0, 2⟩, "A", some 1⟩, ⟨⟨0, 0, 2⟩, "B", some 2⟩]

/-- C9 witness: on an exact tie between concentrations 1 and 2, the best
concentration is 1, and it is maximal and lowest among the tied ones. -/
theorem best_ec_lowest_on_tie_witness :
    ∃ mb : Rat, ((1 : Rat), mb) ∈ ec_weight tieRecords ∧
      ∀ q ∈ ec_weight tieRecords, q.2 ≤ mb ∧ (q.2 = mb → 1 ≤ q.1) :=
  best_ec_lowest_on_tie tieRecords 1 (by
    have hk : ecKeys tieRecords = [1, 2] := by decide
    have h1 : weightsAt tieRecords 1 = [2] := by decide
    have h2 : weightsAt tieRecords 2 = [2] := by decide
    have hw : ec_weight tieRecords = [(1, 2), (2, 2)] := by
      norm_num [ec_weight, hk, h1, h2, meanR]
    norm_num [best_ec, hw, idxmaxGo])

/-- Untagged rows vanish from the concentration keys. -/
theorem filterMap_ec_filter : ∀ records : List GrowthRecord,
    ((records.filter fun r => r.ec.isSome).filterMap GrowthRecord.ec) =
      records.filterMap GrowthRecord.ec
  | [] => rfl
  | r :: rest => by
    cases hr : r.ec with
    | none =>
      simp [List.filter_cons, List.filterMap_cons, hr, filterMap_ec_filter rest]
    | some v =>
      simp [List.filter_cons, List.filterMap_cons, hr, filterMap_ec_filter rest]

/-- Untagged rows vanish from every concentration's group. -/
theorem weightsAt_filter (e : Rat) (records : List GrowthRecord) :
    weightsAt (records.filter fun r => r.ec.isSome) e = weightsAt records e := by
  unfold weightsAt
  rw [List.filter_filter]
  congr 1
  apply List.filter_congr
  intro r _
  cases hr : r.ec <;> simp [hr]

/-- C10: growth records with no configured concentration (absent tag) are
silently excluded from the condition-means — dropping them changes neither
table — and a concentration can only be selected best when some record
actually carries it, so an unmapped group can never be the best condition. -/
theorem unmapped_records_excluded (records : List GrowthRecord) :
    ec_weight records = ec_weight (records.filter fun r => r.ec.isSome) ∧
    ∀ b : Rat, best_ec records = some b → ∃ r ∈ records, r.ec = some b := by
  constructor
  · unfold ec_weight ecKeys
    rw [filterMap_ec_filter]
    simp only [weightsAt_filter]
  · intro b h
    unfold best_ec at h
    cases hw : ec_weight records with
    | nil => rw [hw] at h; cases h
    | cons p rest =>
      rw [hw] at h
      have hb : (idxmaxGo p rest).1 = b := Option.some.inj h
      have hmem : idxmaxGo p rest ∈ p :: rest := by
        rcases idxmaxGo_mem rest p with h1 | h1
        · rw [h1]; exact List.mem_cons_self _ _
        · exact List.mem_cons_of_mem _ h1
      have hkey : b ∈ ecKeys records := by
        rw [← ec_weight_keys records, hw]
        exact List.mem_map.mpr ⟨idxmaxGo p rest, hmem, hb⟩
      exact mem_ecKeys.mp hkey

/-- Summing an indicator over a duplicate-free key list that contains the
key yields the indicated value. -/
theorem sum_indicator_of_mem : ∀ {keys : List Rat}, keys.Nodup →
    ∀ {v : Rat}, v ∈ keys → ∀ w : Rat,
    (keys.map fun e => if v = e then w else 0).sum = w := by
  intro keys
  induction keys with
  | nil => intro _ v hv; cases hv
  | cons e ks ih =>
    intro hnd v hv w
    rw [List.nodup_cons] at hnd
    rcases List.mem_cons.mp hv with rfl | hv
    · have hz : (ks.map fun x => if v = x then w else 0).sum = 0 := by
        apply List.sum_eq_zero
        intro x hx
        rcases List.mem_map.mp hx with ⟨y, hy, hxy⟩
        rw [← hxy, if_neg]
        intro he
        exact hnd.1 (he ▸ hy)
      simp [hz]
    · have hne : v ≠ e := fun he => hnd.1 (he ▸ hv)
      simp [if_neg hne, ih hnd.2 hv w]

/-- The per-key group sums over a covering duplicate-free key list add up to
the total weight of the tagged records. -/
theorem sum_weightsAt_eq (keys : List Rat) (hnd : keys.Nodup) :
    ∀ records : List GrowthRecord,
      (∀ r ∈ records, ∀ e : Rat, r.ec = some e → e ∈ keys) →
      (keys.map fun e => (weightsAt records e).sum).sum =
        totalWeight (records.filter fun r => r.ec.isSome)
  | [], _ => by
    apply List.sum_eq_zero
    intro x hx
    rcases List.mem_map.mp hx with ⟨e, _, hxe⟩
    simp [weightsAt, totalWeight] at hxe ⊢
    exact hxe.symm
  | r :: rest, hcov => by
    have hrest := sum_weightsAt_eq keys hnd rest
      (fun r2 h2 e he => hcov r2 (List.mem_cons_of_mem _ h2) e he)
    cases hr : r.ec with
    | none =>
      have hstep : ∀ e : Rat, weightsAt (r :: rest) e = weightsAt rest e := by
        intro e
        simp [weightsAt, List.filter_cons, hr]
      have hfil : (r :: rest).filter (fun r => r.ec.isSome) =
          rest.filter fun r => r.ec.isSome := by
        simp [List.filter_cons, hr]
      simp only [hstep, hfil]
      exact hrest
    | some v =>
      have hv : v ∈ keys := hcov r (List.mem_cons_self _ _) v hr
      have hstep : ∀ e : Rat, (weightsAt (r :: rest) e).sum =
          (if v = e then r.row.fresh_weight else 0) + (weightsAt rest e).sum := by
        intro e
        by_cases he : v = e
        · simp [weightsAt, List.filter_cons, hr, he]
        · have : ¬ r.ec = some e := by rw [hr]; simpa using he
          simp [weightsAt, List.filter_cons, hr, this, he]
      have hfil : (r :: rest).filter (fun r => r.ec.isSome) =
          r :: rest.filter fun r => r.ec.isSome := by
        simp [List.filter_cons, hr]
      simp only [hstep, hfil, List.sum_map_add, totalWeight, List.map_cons,
        List.sum_cons]
      rw [sum_indicator_of_mem hnd hv r.row.fresh_weight]
      rw [show (rest.filter fun r => r.ec.isSome).map (fun r => r.row.fresh_weight)
        = ((rest.filter fun r => r.ec.isSome).map fun r => r.row.fresh_weight)
        from rfl]
      exact congrArg (r.row.fresh_weight + ·) hrest

/-- A concentration key is always carried by at least one record. -/
theorem weightsAt_length_pos {records : List GrowthRecord} {e : Rat}
    (h : ∃ r ∈ records, r.ec = some e) : 0 < (weightsAt records e).length := by
  obtain ⟨r, hr, he⟩ := h
  have hmem : r ∈ records.filter fun r => decide (r.ec = some e) :=
    List.mem_filter.mpr ⟨hr, by simp [he]⟩
  unfold weightsAt
  rw [List.length_map]
  exact List.length_pos.mpr (List.ne_nil_of_mem hmem)

/-- C4 (amended): the conservation identity of the condition-means — the sum
over concentrations of (group size × group mean) equals the sum of the fresh
weights of the records that carry a concentration tag; when every record is
tagged this is the sum of every individual fresh weight. -/
theorem condTotal_eq_tagged_weights (records : List GrowthRecord) :
    condTotal records = totalWeight (records.filter fun r => r.ec.isSome) := by
  have h1 : condTotal records =
      ((ecKeys records).map fun e => (weightsAt records e).sum).sum := by
    unfold condTotal ec_weight
    rw [List.map_map]
    apply congrArg List.sum
    apply List.map_congr_left
    intro e he
    show (ecCount records e : Rat) * meanR (weightsAt records e) =
      (weightsAt records e).sum
    have hlen : ((weightsAt records e).length : Rat) ≠ 0 := by
      have := weightsAt_length_pos (mem_ecKeys.mp he)
      exact_mod_cast Nat.pos_iff_ne_zero.mp this
    unfold ecCount meanR
    rw [mul_comm]
    exact div_mul_cancel₀ _ hlen
  rw [h1]
  exact sum_weightsAt_eq (ecKeys records) (ecKeys_nodup records) records
    (fun r hr e he => mem_ecKeys.mpr ⟨r, hr, he⟩)

/-- A workbook whose only sheet, `"X"`, is outside the configured mapping and
holds one specimen of fresh weight 5. -/
def cexWorkbook : String → List (String × List GrowthRow) :=
  fun _ => [("X", [⟨0, 0, 5⟩])]

/-- C4 counterexample: a growth dataset loaded from `cexWorkbook` has
condition-means total 0 but individual fresh weights summing to 5 — the
conservation identity over the sum of every individual value fails once a
record carries no concentration tag. -/
theorem condTotal_counterexample :
    load_growth_data id id ["4개교_생육결과데이터.xlsx"] cexWorkbook =
      some [("X", [⟨⟨0, 0, 5⟩, "X", none⟩])] ∧
    condTotal (flattenGrowth [("X", [⟨⟨0, 0, 5⟩, "X", none⟩])]) = 0 ∧
    totalWeight (flattenGrowth [("X", [⟨⟨0, 0, 5⟩, "X", none⟩])]) = 5 ∧
    condTotal (flattenGrowth [("X", [⟨⟨0, 0, 5⟩, "X", none⟩])]) ≠
      totalWeight (flattenGrowth [("X", [⟨⟨0, 0, 5⟩, "X", none⟩])]) := by
  refine ⟨by decide, ?_, ?_, ?_⟩
  · norm_num [condTotal, ec_weight, ecKeys, flattenGrowth, sortAsc]
  · norm_num [totalWeight, flattenGrowth]
  · norm_num [condTotal, totalWeight, ec_weight, ecKeys, flattenGrowth, sortAsc]

/-- C5: the cross-table merge has inner-join semantics — when the
environment-means table has one row per Group, the merged table has exactly
one row for a Group present in both inputs and zero rows for a Group present
in only one. -/
theorem cross_merge_inner_join {α β : Type} (env : List (String × α))
    (growth : List (String × β)) (s : String)
    (hnd : (env.map Prod.fst).Nodup) :
    keyCount s (cross_merge env growth) =
      if s ∈ env.map Prod.fst ∧ s ∈ growth.map Prod.fst then 1 else 0 := by
  induction env with
  | nil => simp [cross_merge, keyCount]
  | cons kv rest ih =>
    rw [List.map_cons, List.nodup_cons] at hnd
    have hrest := ih hnd.2
    unfold cross_merge at hrest ⊢
    rw [List.filterMap_cons]
    cases hk : lookupKey kv.1 growth with
    | none =>
      have hkg : kv.1 ∉ growth.map Prod.fst := (lookupKey_eq_none_iff _ _).mp hk
      rw [Option.map_none']
      rw [hrest]
      by_cases hs : s = kv.1
      · subst hs
        simp [hnd.1, hkg]
      · have hcond : (s ∈ kv.1 :: List.map Prod.fst rest ∧
            s ∈ List.map Prod.fst growth) ↔
            s ∈ List.map Prod.fst rest ∧ s ∈ List.map Prod.fst growth := by
          constructor
          · rintro ⟨h1, h2⟩
            rcases List.mem_cons.mp h1 with h1 | h1
            · exact absurd h1 hs
            · exact ⟨h1, h2⟩
          · rintro ⟨h1, h2⟩
            exact ⟨List.mem_cons_of_mem _ h1, h2⟩
        rw [List.map_cons, if_congr hcond rfl rfl]
    | some b =>
      have hkg : kv.1 ∈ growth.map Prod.fst := mem_of_lookupKey_eq_some hk
      rw [Option.map_some']
      show (if kv.1 = s then 1 else 0) + keyCount s _ = _
      rw [hrest]
      by_cases hs : s = kv.1
      · subst hs
        simp [hnd.1, hkg]
      · have hne : ¬ kv.1 = s := fun he => hs he.symm
        rw [if_neg hne, Nat.zero_add]
        have hcond : (s ∈ kv.1 :: List.map Prod.fst rest ∧
            s ∈ List.map Prod.fst growth) ↔
            s ∈ List.map Prod.fst rest ∧ s ∈ List.map Prod.fst growth := by
          constructor
          · rintro ⟨h1, h2⟩
            rcases List.mem_cons.mp h1 with h1 | h1
            · exact absurd h1 hs
            · exact ⟨h1, h2⟩
          · rintro ⟨h1, h2⟩
            exact ⟨List.mem_cons_of_mem _ h1, h2⟩
        rw [List.map_cons, if_congr hcond rfl rfl]

/-- C5 witness: merging a one-row environment-means table for Group `"A"`
with a growth-means table for Groups `"A"` and `"B"` yields exactly one row
for `"A"` (present in both) per the inner-join count. -/
theorem cross_merge_inner_join_witness :
    keyCount "A" (cross_merge [("A", (1 : Nat))] [("A", (2 : Nat)), ("B", 3)]) =
      if "A" ∈ ([("A", (1 : Nat))].map Prod.fst) ∧
          "A" ∈ ([("A", (2 : Nat)), ("B", (3 : Nat))].map Prod.fst)
        then 1 else 0 :=
  cross_merge_inner_join [("A", 1)] [("A", 2), ("B", 3)] "A" (by decide)
